import Mathlib

/-!
Verification development for the cron-rust HTTP cron runner (`src/main.rs`).

The program is embedded shallowly:

* Rust `&str` / `String` values become `Str := List Char`; the string
  operations the source uses (`trim`, `split`, `splitn`, `split_once`,
  `to_uppercase`, `eq_ignore_ascii_case`) are transcribed below over
  `List Char`, following the semantics of the Rust standard library
  (Rust `split` yields empty pieces between adjacent separators and at the
  ends; `splitn(n, sep)` stops splitting after `n` pieces, the last piece
  keeping the remaining separators; `split_once` splits at the first
  separator only).  `char::is_whitespace` is modelled on the ASCII
  whitespace characters, which are the only ones the claims exercise.
* `chrono` timestamps (`DateTime<Utc>`, nanosecond precision) become `Int`
  nanosecond counts; `TimeDelta::num_milliseconds` truncates toward zero,
  i.e. `Int.tdiv · 1000000`.
* A compiled `cron::Schedule` is represented by its (finite, increasing)
  stream of occurrence instants, a `List Int`; the crate's
  `schedule.upcoming(Utc)` iterator — the occurrences strictly after
  `Utc::now()` — becomes `List.filter` by strict inequality against a
  `now` parameter, and `.next()` becomes `List.head?`.  Functions that in
  the source call `Utc::now()` take the corresponding instant as an
  explicit argument.
* The HTTP client (`ureq`) is external; only the shape of its result is
  needed, and it is modelled from the spec where indicated.
-/

/-- Rust strings, embedded as lists of characters. -/
abbrev Str := List Char

/-- Shorthand turning a Lean string literal into its character list. -/
def str (s : String) : Str := s.data

/-- Model of Rust `char::is_whitespace`, restricted to the ASCII whitespace
characters (the only whitespace the program's inputs use). -/
def isWs (c : Char) : Bool := c = ' ' || c = '\t' || c = '\n' || c = '\r'

/-- Rust `str::trim`: drop whitespace from both ends. -/
def trim (s : Str) : Str :=
  ((s.dropWhile isWs).reverse.dropWhile isWs).reverse

/-- Rust `str::split(pred)`: split at every separator; adjacent separators
and separators at either end produce empty pieces, and the empty string
splits into one empty piece. -/
def splitOnPred (p : Char → Bool) : Str → List Str
  | [] => [[]]
  | c :: rest =>
    if p c then [] :: splitOnPred p rest
    else
      match splitOnPred p rest with
      | [] => [[c]]
      | piece :: pieces => (c :: piece) :: pieces

/-- Rust `str::split_once(sep)`: split at the first separator, `none` if the
separator does not occur. -/
def splitOnceChar (sep : Char) : Str → Option (Str × Str)
  | [] => none
  | c :: rest =>
    if c = sep then some ([], rest)
    else (splitOnceChar sep rest).map (fun ab => (c :: ab.1, ab.2))

/-- Rust `str::splitn(n, sep)`: like `split` but at most `n` pieces, the last
piece keeping any remaining separators. -/
def splitnChar : Nat → Char → Str → List Str
  | 0, _, _ => []
  | 1, _, s => [s]
  | n + 2, sep, s =>
    match splitOnceChar sep s with
    | none => [s]
    | some ab => ab.1 :: splitnChar (n + 1) sep ab.2

/-- Rust `str::to_uppercase` (the inputs involved are ASCII). -/
def toUpperStr (s : Str) : Str := s.map Char.toUpper

/-- Rust `str::eq_ignore_ascii_case`. -/
def eqIgnoreAsciiCase (a b : Str) : Bool :=
  a.map Char.toLower == b.map Char.toLower

/-- `chrono::TimeDelta::num_milliseconds`: whole milliseconds of a
nanosecond-precision signed duration, truncated toward zero. -/
def numMilliseconds (d : Int) : Int := Int.tdiv d 1000000

/-- The `Job` struct (src/main.rs lines 6-13).  `schedule` is the compiled
cron expression, represented by its increasing stream of occurrence
instants; `next_fire` is a UTC instant in nanoseconds. -/
structure Job where
  method : Str
  url : Str
  schedule : List Int
  next_fire : Int
  headers : List (Str × Str)
  body : Option Str
deriving DecidableEq, Repr

/-- `parse_headers` (src/main.rs lines 25-40): split the header field on
`,`, each pair on the first `:`, trim key and value, drop pairs without a
colon and pairs whose key trims to empty. -/
def parse_headers (s : Str) : List (Str × Str) :=
  if (trim s).isEmpty then []
  else
    (splitOnPred (fun c => c = ',') s).filterMap (fun pair =>
      match splitOnceChar ':' pair with
      | none => none
      | some kv =>
        let k := trim kv.1
        let v := trim kv.2
        if k.isEmpty then none else some (k, v))

/-- `split_jobs` (src/main.rs lines 42-46): split the spec on `;`, newline
or carriage return, trim each piece, keep the non-empty ones. -/
def split_jobs (spec : Str) : List Str :=
  ((splitOnPred (fun c => c = ';' || c = '\n' || c = '\r') spec).map trim).filter
    (fun s => !s.isEmpty)

/-- The allowed method names (src/main.rs line 57). -/
def allowedMethods : List Str :=
  [str "GET", str "POST", str "PUT", str "PATCH", str "DELETE", str "HEAD",
   str "OPTIONS"]

/-- The body of the `for` loop of `parse_jobs` (src/main.rs lines 50-78) for
one entry: split into at most 5 `|`-fields; fewer than 3 fields, an invalid
method, an unparseable cron expression, or a schedule without an upcoming
occurrence drop the entry.  `fromStr` stands for `cron::Schedule::from_str`
(the third-party cron engine) and `now` for `Utc::now()` at construction
time (`schedule.upcoming(Utc).next()` is the first occurrence strictly
after that instant). -/
def parseEntry (fromStr : Str → Option (List Int)) (now : Int) (j : Str) :
    Option Job :=
  match splitnChar 5 '|' j with
  | p0 :: p1 :: p2 :: rest =>
    let method := toUpperStr (trim p0)
    if allowedMethods.contains method then
      let url := trim p1
      match fromStr (trim p2) with
      | none => none
      | some schedule =>
        let headers := match rest with
          | p3 :: _ => parse_headers p3
          | [] => []
        let body := match rest with
          | [_, p4] => if p4.isEmpty then none else some p4
          | _ => none
        match (schedule.filter (fun t => now < t)).head? with
        | none => none
        | some next =>
          some { method := method, url := url, schedule := schedule,
                 next_fire := next, headers := headers, body := body }
    else none
  | _ => none

/-- `parse_jobs` (src/main.rs lines 48-80): best-effort parse of every
entry, dropped entries leaving no trace. -/
def parse_jobs (fromStr : Str → Option (List Int)) (now : Int) (spec : Str) :
    List Job :=
  (split_jobs spec).filterMap (parseEntry fromStr now)

/-- The injected shared-secret header name (src/main.rs line 87). -/
def secretName : Str := str "X-Cron-Secret"

/-- The header name checked for a user-supplied user agent
(src/main.rs line 93). -/
def userAgentName : Str := str "User-Agent"

/-- The default user-agent value (src/main.rs line 99). -/
def defaultUA : Str := str "cron-runner/1.0 (Rust ureq)"

/-- The body of the `for` loop of `apply_headers` (src/main.rs lines
89-97), acting on the pair of (headers set so far, `has_ua` flag). -/
def applyStep (acc : List (Str × Str) × Bool) (kv : Str × Str) :
    List (Str × Str) × Bool :=
  if eqIgnoreAsciiCase kv.1 secretName then acc
  else (acc.1 ++ [kv], acc.2 || eqIgnoreAsciiCase kv.1 userAgentName)

/-- The tail of `apply_headers` (src/main.rs lines 98-101): append the
default user agent unless a user-supplied one was seen. -/
def applyFinish (r : List (Str × Str) × Bool) : List (Str × Str) :=
  if r.2 then r.1 else r.1 ++ [(userAgentName, defaultUA)]

/-- `apply_headers` (src/main.rs lines 82-102), viewed as the ordered
sequence of headers set on the request: first the injected secret, then the
user headers in order (those case-insensitively named like the secret are
skipped, and a case-insensitive `User-Agent` among the rest is remembered),
finally the default user agent when none was seen.  This relies on
`ureq::RequestBuilder::header` appending each header it is given, so
duplicates pass through. -/
def apply_headers (secret : Str) (headers : List (Str × Str)) :
    List (Str × Str) :=
  applyFinish (headers.foldl applyStep ([(secretName, secret)], false))

/-- The payload carried by an outgoing request: either no body frame at all
(`ureq`'s plain `.call()`) or an explicit byte payload (possibly empty,
`ureq`'s `.send(bytes)` / `.send_empty()`). -/
inductive Payload where
  | noBody : Payload
  | bytes : Str → Payload
deriving DecidableEq, Repr

/-- The payload chosen by the dispatch `match` (src/main.rs lines 134-185):
for GET/HEAD/OPTIONS/DELETE a present body is force-sent and an absent body
yields a plain body-less request; for POST/PUT/PATCH a present body is sent
and an absent one becomes an explicitly empty payload.  Any other method is
the `unreachable!()` arm, represented by `none`. -/
def requestPayload (method : Str) (body : Option Str) : Option Payload :=
  if method = str "GET" then
    some (match body with | some b => .bytes b | none => .noBody)
  else if method = str "HEAD" then
    some (match body with | some b => .bytes b | none => .noBody)
  else if method = str "OPTIONS" then
    some (match body with | some b => .bytes b | none => .noBody)
  else if method = str "DELETE" then
    some (match body with | some b => .bytes b | none => .noBody)
  else if method = str "POST" then
    some (match body with | some b => .bytes b | none => .bytes [])
  else if method = str "PUT" then
    some (match body with | some b => .bytes b | none => .bytes [])
  else if method = str "PATCH" then
    some (match body with | some b => .bytes b | none => .bytes [])
  else none

/-- The result of one `ureq` request, as matched by the source
(src/main.rs lines 187-193): a response with a status, a status-code error,
or any other (transport) error. -/
inductive UreqResult where
  | ok : Nat → UreqResult
  | errStatus : Nat → UreqResult
  | errTransport : Str → UreqResult
deriving DecidableEq, Repr

/-- The classified outcome reported for one dispatch
(src/main.rs lines 187-194). -/
inductive Outcome where
  | okLine : Nat → Outcome
  | failHttp : Nat → Str → Outcome
  | failTransport : Str → Outcome
deriving DecidableEq, Repr

/-- The `match result` at src/main.rs lines 187-194: a response is logged
`OK` with its status; a status-code error is logged `FAIL` with the code
and its category (`client error` for `400..500`, else `server error`); any
other error is logged `FAIL` with the transport error text. -/
def classify (r : UreqResult) : Outcome :=
  match r with
  | .ok s => .okLine s
  | .errStatus code =>
    .failHttp code
      (if 400 ≤ code ∧ code < 500 then str "client error"
       else str "server error")
  | .errTransport e => .failTransport e

/-- Modelled from the spec: the third-party HTTP client (`ureq`) is not part
of this repository; per the spec's dispatcher contract, when transport
succeeds it "signals a non-2xx/3xx status as an error-status outcome", so a
received status below 400 is a response value and any other received status
surfaces as a status-code error. -/
def ureqResultOfStatus (s : Nat) : UreqResult :=
  if s < 400 then .ok s else .errStatus s

/-- The jitter test at src/main.rs line 131:
`(fired_at - j.next_fire).num_milliseconds().abs() <= jitter_ms` with
`jitter_ms = 500`. -/
def isDue (firedAt nextFire : Int) : Bool :=
  decide ((numMilliseconds (firedAt - nextFire)).natAbs ≤ 500)

/-- The `next_fire` update after a dispatch (src/main.rs lines 196-198):
`schedule.upcoming(Utc)` enumerates the occurrences strictly after the
*current* instant (`updateNow`, read when the dispatch has finished), the
filter keeps those strictly after the occurrence just fired, and the first
such occurrence (if any) replaces `next_fire`; otherwise `next_fire` is
left as it is. -/
def advanceNextFire (schedule : List Int) (updateNow nextFire : Int) : Int :=
  match ((schedule.filter (fun t => updateNow < t)).filter
      (fun t => nextFire < t)).head? with
  | some n => n
  | none => nextFire

/-- The action of one pass of the firing loop on one job
(src/main.rs lines 130-200, dispatch I/O elided): a due job has its
`next_fire` advanced, any other job is untouched.  `firedAt` is the instant
captured at wake-up (line 129) and `updateNow` the instant at which the
update re-reads the clock (line 196). -/
def fireStep (firedAt updateNow : Int) (j : Job) : Job :=
  if isDue firedAt j.next_fire then
    { j with next_fire := advanceNextFire j.schedule updateNow j.next_fire }
  else j

/-- One pass of the firing loop over the whole job vector
(src/main.rs lines 130-200): `iter_mut` visits every job in order and only
mutates `next_fire`, so the pass is a `map` — membership and order of the
job set never change. -/
def firingPass (firedAt updateNow : Int) (jobs : List Job) : List Job :=
  jobs.map (fireStep firedAt updateNow)

/-- The spec's description of the post-dispatch value of `nextFire`: the
smallest occurrence of the schedule strictly greater than the occurrence
just fired (for a schedule given by its increasing occurrence stream, the
first occurrence after `nextFire`). -/
def specNextAfter (schedule : List Int) (nextFire : Int) : Option Int :=
  (schedule.filter (fun t => nextFire < t)).head?

/-- Horizon (in seconds) of the modelled cron engine's occurrence streams. -/
def cronHorizon : Nat := 2

/-- Digits of an ASCII numeral to a number. -/
def digitsToNat (s : Str) : Nat :=
  s.foldl (fun a c => 10 * a + (c.toNat - '0'.toNat)) 0

/-- Modelled from the spec: one field of a cron expression, for the
third-party cron engine (`cron` crate) which is not part of this
repository.  The model covers the field forms the development evaluates —
`*` (step 1) and `*/k` with `k > 0` — and conservatively rejects anything
else; it returns the step, in seconds when the field is the seconds
field. -/
def cronFieldStep (f : Str) : Option Nat :=
  if f = ['*'] then some 1
  else
    match f with
    | '*' :: '/' :: ds =>
      if ds ≠ [] ∧ ds.all Char.isDigit ∧ digitsToNat ds ≠ 0 then
        some (digitsToNat ds)
      else none
    | _ => none

/-- Modelled from the spec: `cron::Schedule::from_str` of the third-party
cron engine, which is not part of this repository.  Per the spec the engine
accepts standard six/seven-field (seconds-granularity) expressions and a
well-formed expression always has a next occurrence; the model accepts an
expression whose whitespace-separated fields number six or seven and all
pass `cronFieldStep`, and produces the occurrence stream driven by the
seconds field's step over a bounded horizon (the remaining fields of every
expression this development evaluates are `*`). -/
def cronModel (e : Str) : Option (List Int) :=
  let fields := (splitOnPred isWs e).filter (fun f => !f.isEmpty)
  if fields.length = 6 ∨ fields.length = 7 then
    match fields with
    | secf :: rest =>
      match cronFieldStep secf with
      | some k =>
        if rest.all (fun f => (cronFieldStep f).isSome) then
          some ((List.range cronHorizon).map
            (fun i => ((i + 1) * k : Nat) * 1000000000))
        else none
      | none => none
    | [] => none
  else none

/-! ### Lemmas about the embedded string operations -/

theorem splitOnPred_ne_nil (p : Char → Bool) (s : Str) : splitOnPred p s ≠ [] := by
  induction s with
  | nil => simp [splitOnPred]
  | cons c rest ih =>
    simp only [splitOnPred]
    split
    · simp
    · cases h : splitOnPred p rest with
      | nil => simp
      | cons a as => simp

theorem mem_splitOnPred_not_sep {p : Char → Bool} {s piece : Str}
    (hp : piece ∈ splitOnPred p s) : ∀ c ∈ piece, p c = false := by
  induction s generalizing piece with
  | nil =>
    simp only [splitOnPred, List.mem_singleton] at hp
    subst hp; simp
  | cons c rest ih =>
    simp only [splitOnPred] at hp
    by_cases hc : p c = true
    · rw [if_pos hc] at hp
      rcases List.mem_cons.mp hp with h | h
      · subst h; simp
      · exact ih h
    · rw [if_neg hc] at hp
      rcases hsplit : splitOnPred p rest with _ | ⟨a, as⟩
      · exact absurd hsplit (splitOnPred_ne_nil p rest)
      · rw [hsplit] at hp
        rcases List.mem_cons.mp hp with h | h
        · subst h
          intro d hd
          rcases List.mem_cons.mp hd with rfl | hd'
          · exact Bool.not_eq_true _ ▸ hc
          · exact ih (hsplit ▸ List.mem_cons_self a as) d hd'
        · exact ih (hsplit ▸ List.mem_cons_of_mem a h)

theorem mem_splitOnPred_mem {p : Char → Bool} {s piece : Str}
    (hp : piece ∈ splitOnPred p s) : ∀ c ∈ piece, c ∈ s := by
  induction s generalizing piece with
  | nil =>
    simp only [splitOnPred, List.mem_singleton] at hp
    subst hp; simp
  | cons c rest ih =>
    simp only [splitOnPred] at hp
    by_cases hc : p c = true
    · rw [if_pos hc] at hp
      rcases List.mem_cons.mp hp with h | h
      · subst h; simp
      · exact fun d hd => List.mem_cons_of_mem c (ih h d hd)
    · rw [if_neg hc] at hp
      rcases hsplit : splitOnPred p rest with _ | ⟨a, as⟩
      · exact absurd hsplit (splitOnPred_ne_nil p rest)
      · rw [hsplit] at hp
        rcases List.mem_cons.mp hp with h | h
        · subst h
          intro d hd
          rcases List.mem_cons.mp hd with rfl | hd'
          · exact List.mem_cons_self ..
          · exact List.mem_cons_of_mem c
              (ih (hsplit ▸ List.mem_cons_self a as) d hd')
        · exact fun d hd =>
            List.mem_cons_of_mem c (ih (hsplit ▸ List.mem_cons_of_mem a h) d hd)

theorem splitOnPred_eq_self {p : Char → Bool} {s : Str}
    (h : ∀ c ∈ s, p c = false) : splitOnPred p s = [s] := by
  induction s with
  | nil => rfl
  | cons c rest ih =>
    have hc : p c = false := h c (List.mem_cons_self ..)
    simp only [splitOnPred]
    rw [if_neg (by simp [hc]), ih (fun d hd => h d (List.mem_cons_of_mem c hd))]

theorem mem_dropWhile {α} {p : α → Bool} {l : List α} {a : α}
    (h : a ∈ l.dropWhile p) : a ∈ l := by
  induction l with
  | nil => simp at h
  | cons c rest ih =>
    simp only [List.dropWhile_cons] at h
    split at h
    · exact List.mem_cons_of_mem c (ih h)
    · exact h

theorem dropWhile_head_false {α} {p : α → Bool} {l t : List α} {c : α}
    (h : l.dropWhile p = c :: t) : p c = false := by
  induction l with
  | nil => simp at h
  | cons a rest ih =>
    simp only [List.dropWhile_cons] at h
    split at h
    · exact ih h
    · rename_i hpa
      injection h with h1 _
      subst h1
      simpa using hpa

theorem dropWhile_idem {α} {p : α → Bool} (l : List α) :
    (l.dropWhile p).dropWhile p = l.dropWhile p := by
  cases h : l.dropWhile p with
  | nil => rfl
  | cons c t =>
    have hc : p c = false := dropWhile_head_false h
    simp [List.dropWhile_cons, hc]

theorem mem_trim {s : Str} {c : Char} (h : c ∈ trim s) : c ∈ s := by
  unfold trim at h
  rw [List.mem_reverse] at h
  have h1 := mem_dropWhile h
  rw [List.mem_reverse] at h1
  exact mem_dropWhile h1

theorem trim_dropWhile (s : Str) : (trim s).dropWhile isWs = trim s := by
  unfold trim
  cases hu : s.dropWhile isWs with
  | nil => simp
  | cons c u' =>
    have hc : isWs c = false := dropWhile_head_false hu
    cases hw : ((c :: u').reverse.dropWhile isWs).reverse with
    | nil => simp
    | cons d w' =>
      have h1 : c :: u'
          = d :: (w' ++ ((c :: u').reverse.takeWhile isWs).reverse) := by
        calc c :: u' = (c :: u').reverse.reverse := (List.reverse_reverse _).symm
          _ = ((c :: u').reverse.takeWhile isWs
                ++ (c :: u').reverse.dropWhile isWs).reverse := by
                rw [List.takeWhile_append_dropWhile]
          _ = ((c :: u').reverse.dropWhile isWs).reverse
                ++ ((c :: u').reverse.takeWhile isWs).reverse := by
                rw [List.reverse_append]
          _ = (d :: w') ++ ((c :: u').reverse.takeWhile isWs).reverse := by
                rw [hw]
          _ = d :: (w' ++ ((c :: u').reverse.takeWhile isWs).reverse) := by
                simp
      have hd : d = c := by
        injection h1 with h2 _
        exact h2.symm
      subst hd
      simp [List.dropWhile_cons, hc]

theorem trim_idem (s : Str) : trim (trim s) = trim s := by
  show (((trim s).dropWhile isWs).reverse.dropWhile isWs).reverse = trim s
  rw [trim_dropWhile]
  show ((((s.dropWhile isWs).reverse.dropWhile isWs).reverse).reverse.dropWhile
      isWs).reverse = _
  rw [List.reverse_reverse, dropWhile_idem]
  rfl

theorem all_ws_of_trim_eq_nil {s : Str} (h : trim s = []) :
    ∀ c ∈ s, isWs c = true := by
  unfold trim at h
  rw [List.reverse_eq_nil_iff, List.dropWhile_eq_nil_iff] at h
  intro c hc
  rw [← List.takeWhile_append_dropWhile isWs s] at hc
  rcases List.mem_append.mp hc with h1 | h2
  · exact List.mem_takeWhile_imp h1
  · exact h c (List.mem_reverse.mpr h2)

theorem splitOnceChar_eq_none {sep : Char} {s : Str}
    (h : ∀ c ∈ s, c ≠ sep) : splitOnceChar sep s = none := by
  induction s with
  | nil => rfl
  | cons c rest ih =>
    simp only [splitOnceChar]
    rw [if_neg (h c (List.mem_cons_self ..)),
      ih (fun d hd => h d (List.mem_cons_of_mem c hd))]
    rfl

theorem filterMap_eq_flatten_map {α β} (f : α → Option β) (l : List α) :
    l.filterMap f = (l.map (fun a => (f a).toList)).flatten := by
  induction l with
  | nil => rfl
  | cons a t ih =>
    cases h : f a with
    | none => simp [List.filterMap_cons, h, ih]
    | some b => simp [List.filterMap_cons, h, ih]

theorem filterMap_eq_nil_of_none {α β} {f : α → Option β} {l : List α}
    (h : ∀ a ∈ l, f a = none) : l.filterMap f = [] := by
  induction l with
  | nil => rfl
  | cons a t ih =>
    rw [List.filterMap_cons, h a (List.mem_cons_self ..)]
    exact ih (fun b hb => h b (List.mem_cons_of_mem a hb))

theorem filter_filterMap_right {α β} (g : α → Option β) (p : β → Bool)
    (l : List α) :
    (l.filterMap g).filter p = l.filterMap (fun a => Option.filter p (g a)) := by
  induction l with
  | nil => rfl
  | cons a t ih =>
    cases hg : g a with
    | none => simp [List.filterMap_cons, hg, ih, Option.filter]
    | some b =>
      cases hp : p b <;>
        simp [List.filterMap_cons, hg, List.filter_cons, hp, ih, Option.filter]

theorem any_congr {α} {l : List α} {p q : α → Bool}
    (h : ∀ a ∈ l, p a = q a) : l.any p = l.any q := by
  induction l with
  | nil => rfl
  | cons a t ih =>
    simp only [List.any_cons]
    rw [h a (List.mem_cons_self ..),
      ih (fun b hb => h b (List.mem_cons_of_mem a hb))]

theorem split_jobs_self {spec e : Str} (he : e ∈ split_jobs spec) :
    split_jobs e = [e] := by
  unfold split_jobs at he ⊢
  rw [List.mem_filter] at he
  obtain ⟨hmem, hne⟩ := he
  rw [List.mem_map] at hmem
  obtain ⟨x, hx, rfl⟩ := hmem
  have hnosep : ∀ c ∈ trim x,
      (fun c => c = ';' || c = '\n' || c = '\r') c = false :=
    fun c hc => mem_splitOnPred_not_sep hx c (mem_trim hc)
  rw [splitOnPred_eq_self hnosep]
  simp only [List.map_cons, List.map_nil, trim_idem, List.filter_cons]
  rw [if_pos hne]
  rfl

/-! ### Lemmas about the header-merge fold -/

theorem foldl_applyStep_fst (hs : List (Str × Str)) :
    ∀ acc : List (Str × Str) × Bool,
      (hs.foldl applyStep acc).1
        = acc.1 ++ hs.filter (fun kv => !eqIgnoreAsciiCase kv.1 secretName) := by
  induction hs with
  | nil => intro acc; simp
  | cons kv t ih =>
    intro acc
    rw [List.foldl_cons, ih]
    by_cases hkv : eqIgnoreAsciiCase kv.1 secretName = true
    · simp [applyStep, hkv, List.filter_cons]
    · simp [applyStep, hkv, List.filter_cons, Bool.not_eq_true _ ▸ hkv]

theorem foldl_applyStep_snd (hs : List (Str × Str)) :
    ∀ acc : List (Str × Str) × Bool,
      (hs.foldl applyStep acc).2
        = (acc.2 || hs.any (fun kv =>
            !eqIgnoreAsciiCase kv.1 secretName
              && eqIgnoreAsciiCase kv.1 userAgentName)) := by
  induction hs with
  | nil => intro acc; simp
  | cons kv t ih =>
    intro acc
    rw [List.foldl_cons, ih]
    by_cases hkv : eqIgnoreAsciiCase kv.1 secretName = true
    · simp [applyStep, hkv, List.any_cons]
    · simp only [applyStep, hkv, if_neg, List.any_cons, Bool.not_eq_true _ ▸ hkv]
      simp [Bool.or_assoc, Bool.not_eq_true _ ▸ hkv]

theorem eqIgnoreAsciiCase_length {a b : Str}
    (h : eqIgnoreAsciiCase a b = true) : a.length = b.length := by
  unfold eqIgnoreAsciiCase at h
  have heq := beq_iff_eq.mp h
  calc a.length = (a.map Char.toLower).length := (List.length_map ..).symm
    _ = (b.map Char.toLower).length := by rw [heq]
    _ = b.length := List.length_map ..

theorem ua_ne_secret {k : Str} (h : eqIgnoreAsciiCase k userAgentName = true) :
    eqIgnoreAsciiCase k secretName = false := by
  cases hv : eqIgnoreAsciiCase k secretName
  · rfl
  · have l1 := eqIgnoreAsciiCase_length h
    have l2 := eqIgnoreAsciiCase_length hv
    have h3 : userAgentName.length = secretName.length := by rw [← l1, l2]
    exact absurd h3 (by decide)

/-! ### Lemmas about the next-fire computation -/

theorem filter_filter_max (schedule : List Int) (a b : Int) :
    (schedule.filter (fun t => a < t)).filter (fun t => b < t)
      = schedule.filter (fun t => max a b < t) := by
  rw [List.filter_filter]
  apply List.filter_congr
  intro t _
  by_cases h1 : b < t <;> by_cases h2 : a < t <;>
    simp [h1, h2, max_lt_iff]

theorem natAbs_numMilliseconds (d : Int) :
    (numMilliseconds d).natAbs = d.natAbs / 1000000 := by
  show (Int.tdiv d 1000000).natAbs = _
  rw [Int.natAbs_tdiv]
  rfl

/-! ### Claim C1 -/

/-- **C1** (counterexample).  The claim says the new `nextFire` is the
smallest occurrence strictly greater than the occurrence just fired,
independent of the wall-clock time of the update.  On the schedule with
occurrences `10, 20, 30`, having fired the occurrence `10`, the smallest
occurrence strictly greater than it is `20` — and the source indeed
produces `20` when the update runs at instant `10` — but when the update
runs at instant `25` (a slow dispatch) the source produces `30`, skipping
`20`: the updated value depends on the wall clock. -/
theorem claim1_nextfire_never_from_now_cex :
    advanceNextFire [10, 20, 30] 25 10 = 30
    ∧ advanceNextFire [10, 20, 30] 10 10 = 20
    ∧ specNextAfter [10, 20, 30] 10 = some 20
    ∧ (∀ m ∈ ([10, 20, 30] : List Int), 10 < m → 20 ≤ m)
    ∧ (30 : Int) ≠ 20 := by decide

/-- **C1** (amended).  After a dispatch the source recomputes the upcoming
occurrences from the wall clock (`schedule.upcoming(Utc)` at update time)
and then keeps those strictly greater than the occurrence just fired, so
the new `nextFire` is the first occurrence strictly greater than *both*
the fired occurrence and the update-time instant (occurrences that passed
during a slow dispatch are skipped); if there is no such occurrence,
`nextFire` is unchanged.  For a sorted occurrence stream, "first" is
"smallest". -/
theorem claim1_nextfire_advances_past_now (schedule : List Int)
    (updateNow nextFire : Int) :
    advanceNextFire schedule updateNow nextFire
      = (match specNextAfter schedule (max updateNow nextFire) with
         | some n => n
         | none => nextFire)
    ∧ (List.Sorted (· < ·) schedule →
        ∀ n, specNextAfter schedule (max updateNow nextFire) = some n →
          n ∈ schedule ∧ max updateNow nextFire < n
            ∧ ∀ m ∈ schedule, max updateNow nextFire < m → n ≤ m) := by
  constructor
  · unfold advanceNextFire specNextAfter
    rw [filter_filter_max]
  · intro hsort n hn
    unfold specNextAfter at hn
    cases hf : schedule.filter (fun t => max updateNow nextFire < t) with
    | nil => rw [hf] at hn; simp at hn
    | cons a tl =>
      rw [hf] at hn
      simp only [List.head?_cons, Option.some.injEq] at hn
      subst hn
      have hmem : a ∈ schedule.filter (fun t => max updateNow nextFire < t) := by
        rw [hf]; exact List.mem_cons_self ..
      rw [List.mem_filter] at hmem
      refine ⟨hmem.1, by simpa using hmem.2, ?_⟩
      intro m hm hmax
      have hmf : m ∈ schedule.filter (fun t => max updateNow nextFire < t) :=
        List.mem_filter.mpr ⟨hm, by simpa using hmax⟩
      rw [hf] at hmf
      rcases List.mem_cons.mp hmf with rfl | hmtl
      · exact le_refl _
      · have hsf : List.Sorted (· < ·) (a :: tl) := by
          rw [← hf]; exact List.Pairwise.filter _ hsort
        exact le_of_lt ((List.sorted_cons.mp hsf).1 m hmtl)

theorem claim1_nextfire_advances_past_now_witness :
    (advanceNextFire [10, 20, 30] 25 10
        = match specNextAfter [10, 20, 30] (max 25 10) with
          | some n => n
          | none => (10 : Int))
    ∧ ((30 : Int) ∈ ([10, 20, 30] : List Int) ∧ max (25 : Int) 10 < 30
        ∧ ∀ m ∈ ([10, 20, 30] : List Int),
            max (25 : Int) 10 < m → (30 : Int) ≤ m) :=
  ⟨(claim1_nextfire_advances_past_now [10, 20, 30] 25 10).1,
   (claim1_nextfire_advances_past_now [10, 20, 30] 25 10).2 (by decide) 30
     (by decide)⟩

/-! ### Claim C3 -/

/-- A job whose schedule has no occurrence after the one just fired. -/
def exhaustedJob : Job :=
  { method := str "GET", url := str "https://x/a", schedule := [10],
    next_fire := 10, headers := [], body := none }

/-- **C3** (counterexample).  The claim says a job whose schedule yields no
occurrence strictly greater than the fired one is removed from the active
set.  Firing `exhaustedJob` (schedule exhausted after occurrence `10`)
leaves the job list identical: the job is still present, `next_fire`
unchanged — the loop's `if let Some(n)` simply skips the update and never
removes anything. -/
theorem claim3_exhausted_removed_cex :
    specNextAfter exhaustedJob.schedule exhaustedJob.next_fire = none
    ∧ isDue 10 exhaustedJob.next_fire = true
    ∧ firingPass 10 10 [exhaustedJob] = [exhaustedJob] := by decide

/-- **C3** (amended).  A firing pass never changes the membership (or
order) of the job set — it is a `map` and preserves length — and a job
whose schedule has no occurrence strictly greater than the occurrence just
fired is kept, entirely unchanged, rather than removed. -/
theorem claim3_exhausted_job_retained :
    (∀ (firedAt updateNow : Int) (jobs : List Job),
        (firingPass firedAt updateNow jobs).length = jobs.length)
    ∧ (∀ (firedAt updateNow : Int) (j : Job),
        specNextAfter j.schedule j.next_fire = none →
          fireStep firedAt updateNow j = j) := by
  constructor
  · intro fa un jobs
    exact List.length_map ..
  · intro fa un j h
    unfold specNextAfter at h
    rw [List.head?_eq_none_iff] at h
    have hadv : advanceNextFire j.schedule un j.next_fire = j.next_fire := by
      unfold advanceNextFire
      have h2 : (j.schedule.filter (fun t => un < t)).filter
          (fun t => j.next_fire < t) = [] := by
        rw [filter_filter_max]
        rw [List.filter_eq_nil_iff] at h ⊢
        intro a ha
        simp only [decide_eq_true_eq] at h ⊢
        intro hlt
        exact h a ha (lt_of_le_of_lt (le_max_right un j.next_fire) hlt)
      rw [h2]
      rfl
    unfold fireStep
    rw [hadv]
    split <;> rfl

theorem claim3_exhausted_job_retained_witness :
    fireStep 10 10 exhaustedJob = exhaustedJob :=
  claim3_exhausted_job_retained.2 10 10 exhaustedJob (by decide)

/-! ### Claim C7 -/

/-- A job whose `next_fire` is far outside the jitter window. -/
def lateJob : Job :=
  { method := str "GET", url := str "https://x/b", schedule := [10],
    next_fire := 0, headers := [], body := none }

/-- **C7** (counterexample).  The claim says a job is dispatched iff
`|firedAt - nextFire| <= 500 ms`.  `chrono` timestamps have nanosecond
precision and `num_milliseconds` truncates toward zero, so at a difference
of `500.5 ms` (`500500000 ns`) the source's test accepts the job
(`500500000 tdiv 10^6 = 500 <= 500`) although the difference exceeds
500 ms. -/
theorem claim7_jitter_window_cex :
    isDue 500500000 0 = true
    ∧ ¬ ((500500000 - 0 : Int).natAbs ≤ 500 * 1000000) := by decide

/-- **C7** (amended).  A job is dispatched on a wake at `firedAt` iff the
*whole-millisecond part* of `firedAt - nextFire` has absolute value at most
500 — equivalently iff `|firedAt - nextFire| < 501 ms` — and a job that is
not due is left entirely unchanged by the pass (the pass maps each job
individually and touches nothing else). -/
theorem claim7_due_iff_truncated_window :
    (∀ firedAt nextFire : Int,
        isDue firedAt nextFire = true
          ↔ (firedAt - nextFire).natAbs < 501000000)
    ∧ (∀ (firedAt updateNow : Int) (j : Job),
        isDue firedAt j.next_fire = false → fireStep firedAt updateNow j = j)
    ∧ (∀ (firedAt updateNow : Int) (jobs : List Job),
        firingPass firedAt updateNow jobs
          = jobs.map (fireStep firedAt updateNow)) := by
  refine ⟨?_, ?_, fun _ _ _ => rfl⟩
  · intro fa nf
    unfold isDue
    rw [decide_eq_true_iff, natAbs_numMilliseconds]
    omega
  · intro fa un j h
    unfold fireStep
    rw [h]
    rfl

theorem claim7_due_iff_truncated_window_witness :
    fireStep 2000000000 0 lateJob = lateJob :=
  claim7_due_iff_truncated_window.2.1 2000000000 0 lateJob (by decide)

/-! ### Claims C5 and C9 -/

theorem apply_headers_eq (secret : Str) (hs : List (Str × Str)) :
    apply_headers secret hs
      = applyFinish
          ((secretName, secret)
              :: hs.filter (fun kv => !eqIgnoreAsciiCase kv.1 secretName),
            hs.any (fun kv => eqIgnoreAsciiCase kv.1 userAgentName)) := by
  unfold apply_headers
  congr 1
  apply Prod.ext
  · simpa using foldl_applyStep_fst hs ([(secretName, secret)], false)
  · rw [foldl_applyStep_snd]
    simp only [Bool.false_or]
    exact any_congr (fun kv _ => by
      cases h : eqIgnoreAsciiCase kv.1 userAgentName
      · simp [h]
      · simp [ua_ne_secret h, h])

/-- **C5** (confirmed).  For every dispatched request the outgoing header
sequence contains exactly one header whose name matches the shared-secret
header name case-insensitively — the injected `X-Cron-Secret` with the
secret value — and hence no user-supplied header with that name (in any
case) survives. -/
theorem claim5_secret_header_exactly_once :
    ∀ (secret : Str) (hs : List (Str × Str)),
      (apply_headers secret hs).filter
          (fun kv => eqIgnoreAsciiCase kv.1 secretName)
        = [(secretName, secret)] := by
  intro secret hs
  rw [apply_headers_eq]
  have hfil : (hs.filter (fun kv => !eqIgnoreAsciiCase kv.1 secretName)).filter
      (fun kv => eqIgnoreAsciiCase kv.1 secretName) = [] := by
    rw [List.filter_filter, List.filter_eq_nil_iff]
    intro kv _
    cases h : eqIgnoreAsciiCase kv.1 secretName <;> simp [h]
  have hsn : eqIgnoreAsciiCase secretName secretName = true := by decide
  have hua : eqIgnoreAsciiCase userAgentName secretName = false := by decide
  cases hany : hs.any (fun kv => eqIgnoreAsciiCase kv.1 userAgentName) <;>
    simp [applyFinish, List.filter_append, List.filter_cons, hfil, hsn, hua]

/-- **C9** (confirmed).  The outgoing header sequence is the injected
secret followed by the user headers (minus secret-named ones), with the
default `User-Agent` appended exactly when no user header is
case-insensitively named `User-Agent`. -/
theorem claim9_default_user_agent_iff :
    ∀ (secret : Str) (hs : List (Str × Str)),
      apply_headers secret hs
        = ((secretName, secret)
              :: hs.filter (fun kv => !eqIgnoreAsciiCase kv.1 secretName))
            ++ (if hs.any (fun kv => eqIgnoreAsciiCase kv.1 userAgentName)
                then [] else [(userAgentName, defaultUA)]) := by
  intro secret hs
  rw [apply_headers_eq]
  cases hany : hs.any (fun kv => eqIgnoreAsciiCase kv.1 userAgentName) <;>
    simp [applyFinish, hany]

/-! ### Claim C2 -/

/-- **C2** (counterexample).  The claim says every received HTTP status —
including 4xx/5xx — is classified as a success outcome carrying the code.
The HTTP layer surfaces a 404 as a status-code error, and the source's
`Err(ureq::Error::StatusCode(code))` arm logs it as `FAIL` with category
`client error` (503: `server error`), not as an `OK` outcome. -/
theorem claim2_all_statuses_ok_cex :
    classify (ureqResultOfStatus 404)
        = Outcome.failHttp 404 (str "client error")
    ∧ classify (ureqResultOfStatus 404) ≠ Outcome.okLine 404
    ∧ classify (ureqResultOfStatus 503)
        = Outcome.failHttp 503 (str "server error") := by decide

/-- **C2** (amended).  A dispatch whose transport succeeds is classified
`OK` with the received status exactly when that status is below 400; a
received 4xx/5xx status surfaces as a status-code error and is classified
as a `FAIL` outcome carrying the code and its category (`client error` for
`[400,500)`, `server error` otherwise); only these two shapes arise from a
received status. -/
theorem claim2_status_classification :
    ∀ s : Nat,
      classify (ureqResultOfStatus s)
        = if s < 400 then Outcome.okLine s
          else Outcome.failHttp s
            (if s < 500 then str "client error" else str "server error") := by
  intro s
  by_cases h : s < 400
  · rw [ureqResultOfStatus, if_pos h, if_pos h]
    rfl
  · rw [ureqResultOfStatus, if_neg h, if_neg h]
    show Outcome.failHttp s _ = Outcome.failHttp s _
    congr 1
    by_cases h2 : s < 500
    · rw [if_pos (⟨by omega, h2⟩ : 400 ≤ s ∧ s < 500), if_pos h2]
    · rw [if_neg (by omega : ¬(400 ≤ s ∧ s < 500)), if_neg h2]

/-! ### Claim C6 -/

/-- **C6** (confirmed).  For the body-less verbs GET/HEAD/OPTIONS/DELETE a
present body is still force-sent as the payload and an absent body yields
a request with no body frame at all; for POST/PUT/PATCH a present body is
sent as the payload and an absent body yields an explicitly empty payload
(distinct from "no body"). -/
theorem claim6_body_policy (body : Option Str) :
    (requestPayload (str "GET") body
        = some (match body with
                | some b => Payload.bytes b
                | none => Payload.noBody))
    ∧ (requestPayload (str "HEAD") body
        = some (match body with
                | some b => Payload.bytes b
                | none => Payload.noBody))
    ∧ (requestPayload (str "OPTIONS") body
        = some (match body with
                | some b => Payload.bytes b
                | none => Payload.noBody))
    ∧ (requestPayload (str "DELETE") body
        = some (match body with
                | some b => Payload.bytes b
                | none => Payload.noBody))
    ∧ (requestPayload (str "POST") body
        = some (match body with
                | some b => Payload.bytes b
                | none => Payload.bytes []))
    ∧ (requestPayload (str "PUT") body
        = some (match body with
                | some b => Payload.bytes b
                | none => Payload.bytes []))
    ∧ (requestPayload (str "PATCH") body
        = some (match body with
                | some b => Payload.bytes b
                | none => Payload.bytes [])) := by
  cases body <;> exact ⟨rfl, rfl, rfl, rfl, rfl, rfl, rfl⟩

/-! ### Claim C4 -/

theorem parseEntry_url_trimmed {fromStr : Str → Option (List Int)}
    {now : Int} {e : Str} {j : Job}
    (h : parseEntry fromStr now e = some j) : ∃ p, j.url = trim p := by
  simp only [parseEntry] at h
  split at h
  · split at h
    · split at h
      · exact absurd h (by simp)
      · split at h
        · exact absurd h (by simp)
        · rw [Option.some.injEq] at h
          subst h
          exact ⟨_, rfl⟩
    · exact absurd h (by simp)
  · exact absurd h (by simp)

/-- **C4** (counterexample).  The claim says an entry whose `url` field
trims to the empty string yields no `Job`.  The source never checks the
url: the entry `GET||* * * * * *` (empty url field) parses to exactly one
job, whose `url` is the empty string. -/
theorem claim4_empty_url_job_cex :
    (parse_jobs cronModel 0 (str "GET||* * * * * *")).map (fun j => j.url)
      = [[]] := by decide

/-- **C4** (amended).  The url of every parsed job is the trimmed url
field — trimmed, but not validated: it may be empty. -/
theorem claim4_url_trimmed_not_validated (fromStr : Str → Option (List Int))
    (now : Int) (spec : Str) (j : Job)
    (hj : j ∈ parse_jobs fromStr now spec) :
    trim j.url = j.url := by
  obtain ⟨e, he, hpe⟩ := List.mem_filterMap.mp hj
  obtain ⟨p, hp⟩ := parseEntry_url_trimmed hpe
  rw [hp, trim_idem]

/-- A job as produced from the entry `GET|u|* * * * * *` at instant 0 under
the modelled cron engine. -/
def plainJob : Job :=
  { method := str "GET", url := str "u", schedule := [1000000000, 2000000000],
    next_fire := 1000000000, headers := [], body := none }

theorem claim4_url_trimmed_not_validated_witness :
    trim plainJob.url = plainJob.url :=
  claim4_url_trimmed_not_validated cronModel 0 (str "GET|u|* * * * * *")
    plainJob (by decide)

/-! ### Claim C8 -/

/-- The scenario specification string named by the claim. -/
def scenarioSpec : Str :=
  str "GET|https://x/a|*/5 * * * * *|;BOGUS;POST|https://x/b|*/10 * * * * *|ct:v|hi"

/-- **C8** (confirmed).  Parsing is per-entry independent: for every
specification string (and every cron engine and construction instant) the
parsed job list is the concatenation, in entry order, of the job lists
obtained by parsing each entry alone; and the scenario string parses to
exactly 2 jobs, the `BOGUS` entry being dropped. -/
theorem claim8_per_entry_parsing :
    (∀ (fromStr : Str → Option (List Int)) (now : Int) (spec : Str),
        parse_jobs fromStr now spec
          = ((split_jobs spec).map
              (fun e => parse_jobs fromStr now e)).flatten)
    ∧ (parse_jobs cronModel 0 scenarioSpec).length = 2 := by
  constructor
  · intro f now spec
    rw [parse_jobs, filterMap_eq_flatten_map]
    congr 1
    apply List.map_congr_left
    intro e he
    rw [parse_jobs, split_jobs_self he, List.filterMap_cons,
      List.filterMap_nil]
    cases parseEntry f now e <;> rfl
  · decide

/-! ### Claim C10 -/

/-- The comma-split of a headers field with each `:`-pair trimmed — the
reference point for the order and trimming of retained pairs. -/
def commaPairsTrimmed (s : Str) : List (Str × Str) :=
  (splitOnPred (fun c => c = ',') s).filterMap
    (fun pair =>
      (splitOnceChar ':' pair).map (fun kv => (trim kv.1, trim kv.2)))

/-- **C10** (confirmed).  Every retained header pair is stored with both
its key and its value stripped of surrounding whitespace, and the output
is exactly the comma-split pair list, trimmed, in input order, with the
empty-key pairs removed. -/
theorem claim10_header_pairs_trimmed_ordered (s : Str) :
    (∀ p ∈ parse_headers s, trim p.1 = p.1 ∧ trim p.2 = p.2)
    ∧ parse_headers s
        = (commaPairsTrimmed s).filter (fun p => !p.1.isEmpty) := by
  have hmain : parse_headers s
      = (commaPairsTrimmed s).filter (fun p => !p.1.isEmpty) := by
    unfold parse_headers commaPairsTrimmed
    by_cases hg : (trim s).isEmpty = true
    · rw [if_pos hg]
      have hnone : ∀ pair ∈ splitOnPred (fun c => c = ',') s,
          (splitOnceChar ':' pair).map (fun kv => (trim kv.1, trim kv.2))
            = none := by
        intro pair hpair
        have hne : ∀ c ∈ pair, c ≠ ':' := by
          intro c hc hcc
          have hw : isWs c = true :=
            all_ws_of_trim_eq_nil (List.isEmpty_iff.mp hg) c
              (mem_splitOnPred_mem hpair c hc)
          subst hcc
          exact absurd hw (by decide)
        rw [splitOnceChar_eq_none hne]
        rfl
      rw [filterMap_eq_nil_of_none hnone]
      rfl
    · rw [if_neg hg, filter_filterMap_right]
      congr 1
      funext pair
      cases hsp : splitOnceChar ':' pair with
      | none => rfl
      | some kv =>
        simp only [Option.map_some']
        cases hk : (trim kv.1).isEmpty <;> simp [Option.filter, hk]
  refine ⟨?_, hmain⟩
  intro p hp
  rw [hmain, List.mem_filter] at hp
  obtain ⟨hp1, -⟩ := hp
  unfold commaPairsTrimmed at hp1
  obtain ⟨pair, -, hpair⟩ := List.mem_filterMap.mp hp1
  cases hsp : splitOnceChar ':' pair with
  | none => rw [hsp] at hpair; exact absurd hpair (by simp)
  | some kv =>
    rw [hsp] at hpair
    simp only [Option.map_some', Option.some.injEq] at hpair
    subst hpair
    exact ⟨trim_idem kv.1, trim_idem kv.2⟩

theorem claim10_header_pairs_trimmed_ordered_witness :
    trim (str "a") = str "a" ∧ trim (str "b") = str "b" :=
  (claim10_header_pairs_trimmed_ordered (str " a : b ,c:d")).1
    (str "a", str "b") (by decide)
